import Mathlib

/-!
Verification development for the batch VPN-configuration provisioning tool
(`masscreate.py`).

Shallow embedding: the pure helpers of the source (`format_number`,
`create_config_text`, the scope computation, the purge predicates, the
update-peer success test) become Lean functions; the effectful `main`
workflow becomes an explicit state-passing function over an environment
that records the outcomes of all external calls (file system contents,
key-generation results, service states, API responses), producing a trace
of side effects together with either a fatal error or a run result.
-/

namespace Masscreate

/-! ## Decimal rendering (Python `str` on a natural number) -/

/-- A decimal digit rendered as a character. -/
def digitToChar : Nat → Char
  | 0 => '0'
  | 1 => '1'
  | 2 => '2'
  | 3 => '3'
  | 4 => '4'
  | 5 => '5'
  | 6 => '6'
  | 7 => '7'
  | 8 => '8'
  | 9 => '9'
  | _ => '*'

/-- Fuel-based decimal rendering helper (structural recursion, so that
concrete instances evaluate inside the kernel). -/
def natCharsAux : Nat → Nat → List Char
  | 0, _ => []
  | fuel + 1, n =>
    if n = 0 then [] else natCharsAux fuel (n / 10) ++ [digitToChar (n % 10)]

/-- The character list of the decimal rendering of `n` (most significant
digit first), i.e. the characters of Python `str(n)` for `n >= 0`. -/
def natChars (n : Nat) : List Char :=
  if n = 0 then ['0'] else natCharsAux n n

theorem natCharsAux_eq_digits :
    ∀ (fuel n : Nat), n ≤ fuel →
      natCharsAux fuel n = ((Nat.digits 10 n).map digitToChar).reverse
  | 0, 0, _ => by simp [natCharsAux]
  | 0, n + 1, h => absurd h (by omega)
  | fuel + 1, n, h => by
    by_cases hn : n = 0
    · subst hn
      simp [natCharsAux]
    · have hdiv : n / 10 < n := Nat.div_lt_self (Nat.pos_of_ne_zero hn) (by norm_num)
      rw [natCharsAux, if_neg hn]
      rw [natCharsAux_eq_digits fuel (n / 10) (by omega)]
      rw [Nat.digits_def' (by norm_num : (1 : ℕ) < 10) (Nat.pos_of_ne_zero hn)]
      simp

theorem natChars_eq_digits (n : Nat) (hn : n ≠ 0) :
    natChars n = ((Nat.digits 10 n).map digitToChar).reverse := by
  rw [natChars, if_neg hn]
  exact natCharsAux_eq_digits n n le_rfl

/-- Python `str(n)` for a natural number. -/
def strOfNat (n : Nat) : String := String.mk (natChars n)

/-- `format_number` from the source: `f"{num:0{digits}d}"`, the decimal
rendering of `num` left-padded with zeros to at least `digits` characters. -/
def format_number (num digits : Nat) : String :=
  String.mk (List.replicate (digits - (natChars num).length) '0' ++ natChars num)

/-- Digit width computed in `main` (line 425):
`digits = max(len(start_num_str), len(end_num_str))` for numeric inputs. -/
def scopeDigits (startNum endNum : Nat) : Nat :=
  max (strOfNat startNum).length (strOfNat endNum).length

/-- `names_in_scope` from `main` (line 426): the set comprehension
`{prefix + format_number(i, digits) : start <= i <= end}`. -/
def names_in_scope (pfx : String) (startNum endNum : Nat) : Finset String :=
  (Finset.Icc startNum endNum).image
    (fun i => pfx ++ format_number i (scopeDigits startNum endNum))

/-! ### Value semantics of the rendered decimal strings -/

/-- Reads a decimal digit back off a character (observer used in proofs). -/
def charToDigit : Char → Nat
  | '0' => 0
  | '1' => 1
  | '2' => 2
  | '3' => 3
  | '4' => 4
  | '5' => 5
  | '6' => 6
  | '7' => 7
  | '8' => 8
  | '9' => 9
  | _ => 0

/-- Numeric value of a big-endian decimal character list. -/
def charsToNat (cs : List Char) : Nat :=
  cs.foldl (fun a c => 10 * a + charToDigit c) 0

theorem charToDigit_digitToChar {d : Nat} (h : d < 10) :
    charToDigit (digitToChar d) = d := by
  interval_cases d <;> rfl

theorem foldl_digit_chars (l : List Nat) (h : ∀ d ∈ l, d < 10) (a : Nat) :
    List.foldl (fun x c => 10 * x + charToDigit c) a ((l.map digitToChar).reverse)
      = a * 10 ^ l.length + Nat.ofDigits 10 l := by
  induction l generalizing a with
  | nil => simp [Nat.ofDigits]
  | cons d l ih =>
    have hd : d < 10 := h d (List.mem_cons_self _ _)
    have hl : ∀ x ∈ l, x < 10 := fun x hx => h x (List.mem_cons_of_mem _ hx)
    simp only [List.map_cons, List.reverse_cons, List.foldl_append, List.foldl_cons,
      List.foldl_nil]
    rw [ih hl a, charToDigit_digitToChar hd, Nat.ofDigits_cons]
    simp only [Nat.cast_id, List.length_cons]
    ring

theorem charsToNat_natChars (n : Nat) : charsToNat (natChars n) = n := by
  by_cases hn : n = 0
  · subst hn; rfl
  · have hlt : ∀ d ∈ Nat.digits 10 n, d < 10 :=
      fun d hd => Nat.digits_lt_base (by norm_num) hd
    rw [charsToNat, natChars_eq_digits n hn, foldl_digit_chars _ hlt 0]
    simp [Nat.ofDigits_digits]

theorem charsToNat_replicate_zero (k : Nat) (cs : List Char) :
    charsToNat (List.replicate k '0' ++ cs) = charsToNat cs := by
  induction k with
  | zero => rfl
  | succ k ih =>
    simp only [List.replicate_succ, List.cons_append, charsToNat, List.foldl_cons]
    exact ih

theorem charsToNat_format_number (num digits : Nat) :
    charsToNat (format_number num digits).data = num := by
  show charsToNat (List.replicate _ '0' ++ natChars num) = num
  rw [charsToNat_replicate_zero, charsToNat_natChars]

theorem format_number_injective (d : Nat) :
    Function.Injective (fun n => format_number n d) := by
  intro i j h
  have := congrArg (fun s : String => charsToNat s.data) h
  simpa [charsToNat_format_number] using this

/-! ### Lengths of rendered decimal strings -/

theorem natChars_length (n : Nat) (hn : n ≠ 0) :
    (natChars n).length = Nat.log 10 n + 1 := by
  rw [natChars_eq_digits n hn]
  simp [Nat.digits_len 10 n (by norm_num) hn]

theorem natChars_length_pos (n : Nat) : 0 < (natChars n).length := by
  by_cases hn : n = 0
  · subst hn; simp [natChars]
  · rw [natChars_length n hn]; omega

theorem natChars_length_mono {m n : Nat} (h : m ≤ n) :
    (natChars m).length ≤ (natChars n).length := by
  by_cases hm : m = 0
  · subst hm
    have : (natChars 0).length = 1 := rfl
    rw [this]
    exact natChars_length_pos n
  · have hn : n ≠ 0 := by omega
    rw [natChars_length m hm, natChars_length n hn]
    exact Nat.succ_le_succ (Nat.log_mono_right h)

theorem strOfNat_length (n : Nat) : (strOfNat n).length = (natChars n).length := rfl

theorem format_number_length (num digits : Nat) :
    (format_number num digits).length = max digits (natChars num).length := by
  show (List.replicate (digits - (natChars num).length) '0' ++ natChars num).length = _
  rw [List.length_append, List.length_replicate]
  omega

theorem string_append_data (a b : String) : (a ++ b).data = a.data ++ b.data := rfl

theorem string_length_append (a b : String) :
    (a ++ b).length = a.length + b.length := by
  show (a ++ b).data.length = a.data.length + b.data.length
  rw [string_append_data, List.length_append]

theorem string_append_left_cancel {p a b : String} (h : p ++ a = p ++ b) : a = b := by
  have hd : p.data ++ a.data = p.data ++ b.data := by
    rw [← string_append_data, ← string_append_data, h]
  cases a; cases b
  simp only [List.append_cancel_left_eq] at hd
  exact congrArg String.mk hd

/-- C2: for all numeric inputs `start <= end`, the scope name set
`{prefix + pad(i) : start <= i <= end}` has exactly `end - start + 1`
members, every member has the uniform digit width
`scopeDigits start end` after the prefix, and that width equals
`max(len(str(start)), len(str(end)))`. -/
theorem C2_scope_name_set (pfx : String) (startNum endNum : Nat)
    (h : startNum ≤ endNum) :
    (names_in_scope pfx startNum endNum).card = endNum - startNum + 1 ∧
    (∀ name ∈ names_in_scope pfx startNum endNum,
      name.length = pfx.length + scopeDigits startNum endNum) ∧
    scopeDigits startNum endNum
      = max (strOfNat startNum).length (strOfNat endNum).length := by
  refine ⟨?_, ?_, rfl⟩
  · rw [names_in_scope, Finset.card_image_of_injOn, Nat.card_Icc]
    · omega
    · intro i _ j _ hij
      exact format_number_injective _ (string_append_left_cancel hij)
  · intro name hname
    rw [names_in_scope, Finset.mem_image] at hname
    obtain ⟨i, hi, rfl⟩ := hname
    rw [Finset.mem_Icc] at hi
    rw [string_length_append, format_number_length]
    have h1 : (natChars i).length ≤ (natChars endNum).length :=
      natChars_length_mono hi.2
    have h2 : (natChars endNum).length ≤ scopeDigits startNum endNum :=
      le_max_right _ _
    have : (natChars i).length ≤ scopeDigits startNum endNum := le_trans h1 h2
    omega

/-- Witness for C2 at prefix `"APW"`, range 8..12 (mixed one- and
two-digit endpoints, so the width is 2). -/
theorem C2_scope_name_set_witness :
    (names_in_scope "APW" 8 12).card = 12 - 8 + 1 ∧
    (∀ name ∈ names_in_scope "APW" 8 12,
      name.length = "APW".length + scopeDigits 8 12) ∧
    scopeDigits 8 12 = max (strOfNat 8).length (strOfNat 12).length :=
  C2_scope_name_set "APW" 8 12 (by norm_num)

/-! ## Config rendering (`create_config_text`) -/

/-- One entry of the `peers_for_conf` list built in the creation loop
(lines 518-531): a peer dict with name, generated key pair, and the
template's allowed-IPs / endpoint / keepalive policy. -/
structure RPeer where
  name : String
  public_key : String
  private_key : String
  allowed_ips : String
  endpoint : String
  keepalive : String
deriving Repr, DecidableEq

/-- The lines appended for one peer by `create_config_text` (lines 149-157);
the endpoint and keepalive lines are emitted only when the field is a
non-empty string (Python truthiness). -/
def peerLines (p : RPeer) : List String :=
  ["[Peer]",
   "PublicKey = " ++ p.public_key,
   "AllowedIPs = " ++ p.allowed_ips]
  ++ (if p.endpoint ≠ "" then ["Endpoint = " ++ p.endpoint] else [])
  ++ (if p.keepalive ≠ "" then ["PersistentKeepalive = " ++ p.keepalive] else [])
  ++ [""]

/-- The `lines` list built by `create_config_text` (lines 137-157). -/
def create_config_lines (address listen_port interface_privkey : String)
    (extra_peers : List RPeer) : List String :=
  ["[Interface]",
   "Address = " ++ address,
   "SaveConfig = true",
   "PreUp =",
   "PostUp =",
   "PreDown =",
   "PostDown =",
   "ListenPort = " ++ listen_port,
   "PrivateKey = " ++ interface_privkey,
   ""]
  ++ extra_peers.flatMap peerLines

/-- Joins character-list lines with the separator `c`
(the `"\n".join(lines)` of line 158). -/
def joinLines (c : Char) : List (List Char) → List Char
  | [] => []
  | [l] => l
  | l :: l2 :: ls => l ++ c :: joinLines c (l2 :: ls)

/-- `create_config_text` from the source: the rendered record text. -/
def create_config_text (address listen_port interface_privkey : String)
    (extra_peers : List RPeer) : String :=
  String.mk (joinLines '\n'
    ((create_config_lines address listen_port interface_privkey extra_peers).map
      String.data))

/-! ## Re-parsing a rendered record -/

/-- Splits a character list at every occurrence of `c` (never returns `[]`). -/
def splitOnChar (c : Char) : List Char → List (List Char)
  | [] => [[]]
  | x :: xs =>
    let r := splitOnChar c xs
    if x = c then [] :: r else (x :: r.headD []) :: r.tail

/-- `charsStart pat l` holds when `l` starts with `pat`. -/
def charsStart : List Char → List Char → Bool
  | [], _ => true
  | _ :: _, [] => false
  | p :: ps, x :: xs => p == x && charsStart ps xs

/-- Reads the value of a `key = value` line, if the line carries `key`. -/
def parseLine (key : String) (l : List Char) : Option String :=
  if charsStart (key ++ " = ").data l
  then some (String.mk (l.drop (key ++ " = ").data.length)) else none

/-- Modelled from the spec: re-parsing a rendered record (the source ships
no parser; the spec's round-trip property presumes the ordinary reading of
the `Key = value` line format). Splits the text into lines and returns the
value of the first line starting with `key ++ " = "`. -/
def parseField (key : String) (text : String) : Option String :=
  ((splitOnChar '\n' text.data).filterMap (parseLine key)).head?

theorem string_mk_data (s : String) : String.mk s.data = s := by
  cases s
  rfl

theorem splitOnChar_not_mem {c : Char} {l : List Char} (h : c ∉ l) :
    splitOnChar c l = [l] := by
  induction l with
  | nil => rfl
  | cons x xs ih =>
    have hx : ¬x = c := fun hc => h (hc ▸ List.mem_cons_self _ _)
    have hxs : c ∉ xs := fun hc => h (List.mem_cons_of_mem _ hc)
    simp [splitOnChar, hx, ih hxs]

theorem splitOnChar_append_cons {c : Char} {l : List Char} (r : List Char)
    (h : c ∉ l) :
    splitOnChar c (l ++ c :: r) = l :: splitOnChar c r := by
  induction l with
  | nil => simp [splitOnChar]
  | cons x xs ih =>
    have hx : ¬x = c := fun hc => h (hc ▸ List.mem_cons_self _ _)
    have hxs : c ∉ xs := fun hc => h (List.mem_cons_of_mem _ hc)
    simp [splitOnChar, hx, ih hxs]

theorem splitOnChar_joinLines {c : Char} :
    ∀ (ls : List (List Char)), ls ≠ [] → (∀ l ∈ ls, c ∉ l) →
      splitOnChar c (joinLines c ls) = ls
  | [], h, _ => absurd rfl h
  | [l], _, hmem => by
      simp only [joinLines]
      exact splitOnChar_not_mem (hmem l (List.mem_cons_self _ _))
  | l :: l2 :: ls, _, hmem => by
      simp only [joinLines]
      rw [splitOnChar_append_cons _ (hmem l (List.mem_cons_self _ _))]
      rw [splitOnChar_joinLines (l2 :: ls) (by simp)
        (fun x hx => hmem x (List.mem_cons_of_mem _ hx))]

theorem charsStart_self_append (p r : List Char) :
    charsStart p (p ++ r) = true := by
  induction p with
  | nil => rfl
  | cons x xs ih => simp [charsStart, ih]

theorem charsStart_false_of_ne {a b : Char} (p x : List Char)
    (h : (a == b) = false) : charsStart (a :: p) (b :: x) = false := by
  simp [charsStart, h]

theorem parseLine_match (key : String) (rest : List Char) :
    parseLine key ((key ++ " = ").data ++ rest) = some (String.mk rest) := by
  rw [parseLine, if_pos (charsStart_self_append _ _)]
  rw [List.drop_left]

theorem parseLine_no (key : String) (l : List Char)
    (h : charsStart (key ++ " = ").data l = false) : parseLine key l = none := by
  rw [parseLine, h]
  rfl

theorem charsStart_append_false :
    ∀ (l p r : List Char),
      charsStart (p.take l.length) l = false → charsStart p (l ++ r) = false
  | [], p, r, h => by simp [charsStart] at h
  | x :: l, [], r, h => by simp [charsStart] at h
  | x :: l, a :: p, r, h => by
      simp only [List.length_cons, List.take_succ_cons, charsStart] at h
      simp only [List.cons_append, charsStart]
      cases hax : a == x with
      | false => simp
      | true =>
        rw [hax] at h
        simp only [Bool.true_and] at h ⊢
        exact charsStart_append_false l p r h

theorem parseLine_match_str (key v : String) :
    parseLine key ((key ++ " = ") ++ v).data = some v := by
  rw [string_append_data]
  have h := parseLine_match key v.data
  rwa [string_mk_data] at h

/-- C7: rendering a record from an EntitySpec with `create_config_text`
and re-parsing the produced text recovers the interface address, listen
port and private key (for newline-free field values). -/
theorem C7_render_reparse
    (address listen_port interface_privkey : String) (extra_peers : List RPeer)
    (ha : '\n' ∉ address.data) (hl : '\n' ∉ listen_port.data)
    (hk : '\n' ∉ interface_privkey.data)
    (hp : ∀ p ∈ extra_peers,
      '\n' ∉ p.public_key.data ∧ '\n' ∉ p.allowed_ips.data ∧
      '\n' ∉ p.endpoint.data ∧ '\n' ∉ p.keepalive.data) :
    parseField "Address"
        (create_config_text address listen_port interface_privkey extra_peers)
      = some address ∧
    parseField "ListenPort"
        (create_config_text address listen_port interface_privkey extra_peers)
      = some listen_port ∧
    parseField "PrivateKey"
        (create_config_text address listen_port interface_privkey extra_peers)
      = some interface_privkey := by
  have hnl : ∀ l ∈ (create_config_lines address listen_port interface_privkey
      extra_peers).map String.data, '\n' ∉ l := by
    intro l hlm
    rw [List.mem_map] at hlm
    obtain ⟨s, hs, rfl⟩ := hlm
    rw [create_config_lines] at hs
    rcases List.mem_append.mp hs with hs | hs
    · simp only [List.mem_cons, List.not_mem_nil, or_false] at hs
      rcases hs with rfl | rfl | rfl | rfl | rfl | rfl | rfl | rfl | rfl | rfl
      · decide
      · rw [string_append_data]
        intro hm
        rcases List.mem_append.mp hm with hm | hm
        · exact absurd hm (by decide)
        · exact ha hm
      · decide
      · decide
      · decide
      · decide
      · decide
      · rw [string_append_data]
        intro hm
        rcases List.mem_append.mp hm with hm | hm
        · exact absurd hm (by decide)
        · exact hl hm
      · rw [string_append_data]
        intro hm
        rcases List.mem_append.mp hm with hm | hm
        · exact absurd hm (by decide)
        · exact hk hm
      · decide
    · rw [List.mem_flatMap] at hs
      obtain ⟨p, hpm, hs⟩ := hs
      obtain ⟨h1, h2, h3, h4⟩ := hp p hpm
      rw [peerLines] at hs
      rcases List.mem_append.mp hs with hs | hs
      swap
      · simp only [List.mem_cons, List.not_mem_nil, or_false] at hs
        subst hs
        decide
      rcases List.mem_append.mp hs with hs | hs
      swap
      · split at hs
        · simp only [List.mem_cons, List.not_mem_nil, or_false] at hs
          subst hs
          rw [string_append_data]
          intro hm
          rcases List.mem_append.mp hm with hm | hm
          · exact absurd hm (by decide)
          · exact h4 hm
        · exact absurd hs (List.not_mem_nil _)
      rcases List.mem_append.mp hs with hs | hs
      swap
      · split at hs
        · simp only [List.mem_cons, List.not_mem_nil, or_false] at hs
          subst hs
          rw [string_append_data]
          intro hm
          rcases List.mem_append.mp hm with hm | hm
          · exact absurd hm (by decide)
          · exact h3 hm
        · exact absurd hs (List.not_mem_nil _)
      · simp only [List.mem_cons, List.not_mem_nil, or_false] at hs
        rcases hs with rfl | rfl | rfl
        · decide
        · rw [string_append_data]
          intro hm
          rcases List.mem_append.mp hm with hm | hm
          · exact absurd hm (by decide)
          · exact h1 hm
        · rw [string_append_data]
          intro hm
          rcases List.mem_append.mp hm with hm | hm
          · exact absurd hm (by decide)
          · exact h2 hm
  have hsplit : splitOnChar '\n'
      (create_config_text address listen_port interface_privkey extra_peers).data
      = (create_config_lines address listen_port interface_privkey
          extra_peers).map String.data := by
    exact splitOnChar_joinLines _ (by simp [create_config_lines]) hnl
  have eAddr : parseLine "Address" ("Address = " ++ address).data = some address := by
    rw [show ("Address = " : String) = "Address" ++ " = " from by decide]
    exact parseLine_match_str "Address" address
  have ePort : parseLine "ListenPort"
      ("ListenPort = " ++ listen_port).data = some listen_port := by
    rw [show ("ListenPort = " : String) = "ListenPort" ++ " = " from by decide]
    exact parseLine_match_str "ListenPort" listen_port
  have eKey : parseLine "PrivateKey"
      ("PrivateKey = " ++ interface_privkey).data = some interface_privkey := by
    rw [show ("PrivateKey = " : String) = "PrivateKey" ++ " = " from by decide]
    exact parseLine_match_str "PrivateKey" interface_privkey
  have nPortAddr : parseLine "ListenPort" ("Address = " ++ address).data = none := by
    apply parseLine_no
    rw [string_append_data]
    exact charsStart_append_false _ _ _ (by decide)
  have nKeyAddr : parseLine "PrivateKey" ("Address = " ++ address).data = none := by
    apply parseLine_no
    rw [string_append_data]
    exact charsStart_append_false _ _ _ (by decide)
  have nKeyPort : parseLine "PrivateKey"
      ("ListenPort = " ++ listen_port).data = none := by
    apply parseLine_no
    rw [string_append_data]
    exact charsStart_append_false _ _ _ (by decide)
  have n0 : parseLine "Address" ("[Interface]" : String).data = none := by decide
  refine ⟨?_, ?_, ?_⟩
  · rw [parseField, hsplit, create_config_lines]
    simp only [List.map_append, List.map_cons, List.cons_append]
    rw [List.filterMap_cons_none n0, List.filterMap_cons_some eAddr,
      List.head?_cons]
  · rw [parseField, hsplit, create_config_lines]
    simp only [List.map_append, List.map_cons, List.cons_append]
    rw [List.filterMap_cons_none (show parseLine "ListenPort"
        ("[Interface]" : String).data = none from by decide),
      List.filterMap_cons_none nPortAddr,
      List.filterMap_cons_none (show parseLine "ListenPort"
        ("SaveConfig = true" : String).data = none from by decide),
      List.filterMap_cons_none (show parseLine "ListenPort"
        ("PreUp =" : String).data = none from by decide),
      List.filterMap_cons_none (show parseLine "ListenPort"
        ("PostUp =" : String).data = none from by decide),
      List.filterMap_cons_none (show parseLine "ListenPort"
        ("PreDown =" : String).data = none from by decide),
      List.filterMap_cons_none (show parseLine "ListenPort"
        ("PostDown =" : String).data = none from by decide),
      List.filterMap_cons_some ePort, List.head?_cons]
  · rw [parseField, hsplit, create_config_lines]
    simp only [List.map_append, List.map_cons, List.cons_append]
    rw [List.filterMap_cons_none (show parseLine "PrivateKey"
        ("[Interface]" : String).data = none from by decide),
      List.filterMap_cons_none nKeyAddr,
      List.filterMap_cons_none (show parseLine "PrivateKey"
        ("SaveConfig = true" : String).data = none from by decide),
      List.filterMap_cons_none (show parseLine "PrivateKey"
        ("PreUp =" : String).data = none from by decide),
      List.filterMap_cons_none (show parseLine "PrivateKey"
        ("PostUp =" : String).data = none from by decide),
      List.filterMap_cons_none (show parseLine "PrivateKey"
        ("PreDown =" : String).data = none from by decide),
      List.filterMap_cons_none (show parseLine "PrivateKey"
        ("PostDown =" : String).data = none from by decide),
      List.filterMap_cons_none nKeyPort,
      List.filterMap_cons_some eKey, List.head?_cons]

/-- Witness for C7 at a concrete EntitySpec with one peer carrying an
endpoint and a keepalive. -/
theorem C7_render_reparse_witness :
    parseField "Address" (create_config_text "10.0.0.1/24" "51820" "PRIV"
        [⟨"p1", "PUB", "PPRIV", "10.0.0.2/32", "vpn.example.com:51820", "25"⟩])
      = some "10.0.0.1/24" ∧
    parseField "ListenPort" (create_config_text "10.0.0.1/24" "51820" "PRIV"
        [⟨"p1", "PUB", "PPRIV", "10.0.0.2/32", "vpn.example.com:51820", "25"⟩])
      = some "51820" ∧
    parseField "PrivateKey" (create_config_text "10.0.0.1/24" "51820" "PRIV"
        [⟨"p1", "PUB", "PPRIV", "10.0.0.2/32", "vpn.example.com:51820", "25"⟩])
      = some "PRIV" :=
  C7_render_reparse "10.0.0.1/24" "51820" "PRIV"
    [⟨"p1", "PUB", "PPRIV", "10.0.0.2/32", "vpn.example.com:51820", "25"⟩]
    (by decide) (by decide) (by decide) (by decide)

/-! ## Remote registrar (`update_wgdashboard_peer`) -/

/-- The JSON value found at the `"status"` key of a decoded response body. -/
inductive JField
  | jtrue
  | jfalse
  | other
deriving Repr, DecidableEq

/-- The decoded body of an update response: either the text fails to parse
as JSON (`json.loads` raises `JSONDecodeError`), or it is an object whose
`"status"` key is absent (`body.get("status")` is `None`) or carries a
JSON value. An empty body reads as `{}` (line 125), i.e. `obj none`. -/
inductive UpdateBody
  | malformed
  | obj (status : Option JField)
deriving Repr, DecidableEq

/-- The outcome of the POST issued by `update_wgdashboard_peer`: a network
error (`URLError`/`HTTPError`, caught at line 127) or an HTTP response
with a status code and a body. -/
inductive UpdateResp
  | netError
  | httpResp (status : Nat) (body : UpdateBody)
deriving Repr, DecidableEq

/-- `update_wgdashboard_peer` (lines 121-128), abstracted over the wire:
`False` on a network error; `False` when `resp.status != 200`; otherwise
the body must decode and satisfy `body.get("status") is True`. -/
def update_wgdashboard_peer : UpdateResp → Bool
  | .netError => false
  | .httpResp status body =>
    if status ≠ 200 then false
    else
      match body with
      | .malformed => false
      | .obj (some .jtrue) => true
      | .obj _ => false

/-! ## Store cleaner, sweeps, interface controller -/

/-- Python `str.startswith`. -/
def strStartsWith (s pat : String) : Bool := charsStart pat.data s.data

/-- `purge_wgdashboard_tables` (lines 202-219) with the default pattern
`"APW%"`: clears every table whose name matches the SQLite `LIKE` prefix
pattern (modelled case-sensitively), returning the cleared names; a
missing store yields an empty result (warning only). -/
def purge_wgdashboard_tables (dbExists : Bool) (tables : List String) :
    List String :=
  if dbExists then tables.filter (fun t => strStartsWith t "APW") else []

/-- `purge_wgdashboard_tables_for` (lines 222-241): clears every table
whose name matches one of the patterns `f"{n}%"`, i.e. starts with one of
the given names. -/
def purge_wgdashboard_tables_for (dbExists : Bool) (tables names : List String) :
    List String :=
  if dbExists then tables.filter (fun t => names.any (fun n => strStartsWith t n))
  else []

/-- The stems deleted by `delete_existing_configs` (lines 275-291): every
`*.conf` stem present that does not start with `_` and lies in
`allowed_names` when that set is given. Per-file unlink failures only
print and continue; the model records the attempted deletions. -/
def delete_existing_configs (files : List String)
    (allowed_names : Option (List String)) : List String :=
  files.filter (fun s =>
    !strStartsWith s "_" &&
      (match allowed_names with
       | none => true
       | some a => a.contains s))

/-- Strips leading and trailing spaces (Python `str.strip` on the
space-separated CIDR entries). -/
def trimChars (cs : List Char) : List Char :=
  ((cs.dropWhile (fun c => c == ' ')).reverse.dropWhile (fun c => c == ' ')).reverse

/-- The non-empty trimmed entries of a comma-separated list (lines 184-187). -/
def splitIps (s : String) : List String :=
  ((splitOnChar ',' s.data).map (fun cs => String.mk (trimChars cs))).filter
    (fun t => t ≠ "")

/-! ## The environment of a run and its side-effect trace -/

/-- A generated key pair (`generate_keypair`, lines 191-199). -/
structure KeyPair where
  priv : String
  pub : String
deriving Repr, DecidableEq

/-- One `[peer.<name>]` template from the ini file (lines 334-353). -/
structure PeerTemplate where
  name : String
  public_key : String
  allowed_ips : String
  endpoint : String
  keepalive : String
deriving Repr, DecidableEq

/-- The settings of one run after validation (lines 404-426 and flags). -/
structure Cfg where
  pfx : String
  startNum : Nat
  endNum : Nat
  address : String
  listen_port : String
  peer_allowed_ips : String
  deleteExisting : Bool
  dryRun : Bool
  deleteOnly : Bool
  extraPeers : List PeerTemplate
deriving Repr, DecidableEq

/-- The environment of a run: the target directory's `*.conf` stems and
the outcomes of every external call. `keygen k` is the result of the
`k`-th call to `generate_keypair` (`none` models the
`CalledProcessError`); `api k` is the response to the `k`-th
`updatePeerSettings` POST. -/
structure Env where
  files0 : List String
  keygen : Nat → Option KeyPair
  handshakeOK : Bool
  writeAccess : Bool
  stopOK : Bool
  activeAfterCleanup : Bool
  restartChoice : Bool
  activeAfterRestart : Bool
  ifaceRunning : String → Bool
  ifaceStartOK : String → Bool
  api : Nat → UpdateResp
  dbExists : Bool
  tables : List String

/-- The externally visible actions of a run. `depCheck`, `handshake` and
the two `would*` reports are read-only; everything else mutates external
state. -/
inductive Effect
  | depCheck
  | handshake
  | mkdirTarget
  | deleteFile (stem : String)
  | writeFile (stem : String) (text : String)
  | chmodFile (stem : String)
  | purgeTable (table : String)
  | serviceStop
  | serviceStart
  | serviceRestart
  | ifaceUp (name : String)
  | ifaceDown (name : String)
  | ifaceDelete (name : String)
  | routeDelete (name : String) (cidr : String)
  | wouldDelete (stem : String)
  | wouldCreate (stem : String)
deriving Repr, DecidableEq

/-- Whether an effect mutates external state. -/
def Effect.mutates : Effect → Bool
  | .depCheck => false
  | .handshake => false
  | .wouldDelete _ => false
  | .wouldCreate _ => false
  | _ => true

/-- The conditions on which the process exits with status 1 after the
start-up validation has passed. -/
inductive Fatal
  | handshakeFailed
  | noWriteAccess
  | serviceInactive
deriving Repr, DecidableEq

/-- `delete_interface_and_routes` (lines 179-188): stop the interface when
running, force link deletion, delete each configured CIDR route. -/
def delete_interface_and_routes (running : Bool) (name peer_allowed_ips : String) :
    List Effect :=
  (if running then [Effect.ifaceDown name] else [])
    ++ [Effect.ifaceDelete name]
    ++ (splitIps peer_allowed_ips).map (Effect.routeDelete name)

/-- `run_pre_creation_cleanup` (lines 258-272): attempt to stop the
service, purge the default-pattern tables, and when the stop succeeded
restart the service and poll it — returning the effects and whether the
run must abort (`sys.exit(1)` at line 272). -/
def run_pre_creation_cleanup (env : Env) : List Effect × Bool :=
  let purged := purge_wgdashboard_tables env.dbExists env.tables
  if env.stopOK then
    ([Effect.serviceStop] ++ purged.map Effect.purgeTable ++ [Effect.serviceStart],
     !env.activeAfterCleanup)
  else
    ([Effect.serviceStop] ++ purged.map Effect.purgeTable, false)

/-! ## The creation loop (lines 494-553) -/

/-- One entry of the `summary` list (line 537). -/
structure SummaryEntry where
  name : String
  interface_pub : String
  peers : List RPeer
deriving Repr, DecidableEq

/-- The mutable state of the creation loop: current directory contents,
the key-generation call counter, the four counters, the summary, the
processed names in order, and the effect trace. -/
structure LoopState where
  files : List String
  k : Nat
  total : Nat
  created : Nat
  skipped : Nat
  errors : Nat
  summary : List SummaryEntry
  processed : List String
  effects : List Effect
deriving Repr, DecidableEq

/-- The peer key-generation loop (lines 518-531): one fresh
`generate_keypair` call per template, aborting the entity on the first
failure. Returns the built peer list (or `none`) and the next key counter.
The template's `public_key` field is not consulted. -/
def genPeers (keygen : Nat → Option KeyPair) :
    Nat → List PeerTemplate → Option (List RPeer) × Nat
  | k, [] => (some [], k)
  | k, t :: ts =>
    match keygen k with
    | none => (none, k + 1)
    | some kp =>
      match genPeers keygen (k + 1) ts with
      | (none, k2) => (none, k2)
      | (some ps, k2) =>
        (some ({ name := t.name, public_key := kp.pub, private_key := kp.priv,
                 allowed_ips := t.allowed_ips, endpoint := t.endpoint,
                 keepalive := t.keepalive } :: ps), k2)

/-- One iteration of the creation loop (lines 494-553) for one name:
skip-if-exists, interface key generation, peer key generation, summary
append, then either the dry-run report or the config write with chmod. -/
def processName (cfg : Cfg) (env : Env) (st : LoopState) (name : String) :
    LoopState :=
  let st1 := { st with total := st.total + 1, processed := st.processed ++ [name] }
  if st1.files.contains name && !cfg.deleteExisting then
    { st1 with skipped := st1.skipped + 1 }
  else
    match env.keygen st1.k with
    | none => { st1 with k := st1.k + 1, errors := st1.errors + 1 }
    | some ikp =>
      match genPeers env.keygen (st1.k + 1) cfg.extraPeers with
      | (none, k2) => { st1 with k := k2, errors := st1.errors + 1 }
      | (some ps, k2) =>
        let st2 := { st1 with
          k := k2
          summary := st1.summary ++ [SummaryEntry.mk name ikp.pub ps] }
        if cfg.dryRun then
          { st2 with created := st2.created + 1,
                     effects := st2.effects ++ [Effect.wouldCreate name] }
        else
          { st2 with created := st2.created + 1,
                     files := st2.files ++ [name],
                     effects := st2.effects
                       ++ [Effect.writeFile name
                             (create_config_text cfg.address cfg.listen_port
                               ikp.priv ps),
                           Effect.chmodFile name] }

/-- The ordered name range of the run (`range(start_num, end_num + 1)`
with `format_number`, lines 468 and 494-497). -/
def scopeList (cfg : Cfg) : List String :=
  (List.range' cfg.startNum (cfg.endNum + 1 - cfg.startNum)).map
    (fun i => cfg.pfx ++ format_number i (scopeDigits cfg.startNum cfg.endNum))

/-- The creation loop run over the whole scope from fresh counters. -/
def creationLoop (cfg : Cfg) (env : Env) (files : List String) : LoopState :=
  (scopeList cfg).foldl (processName cfg env)
    { files := files, k := 0, total := 0, created := 0, skipped := 0,
      errors := 0, summary := [], processed := [], effects := [] }

/-! ## The registration phase (lines 572-611) -/

/-- The state of the registration phase: API success/failure counters,
the update-call counter, and the effect trace. -/
structure RegState where
  apiSuccess : Nat
  apiFailed : Nat
  kapi : Nat
  effects : List Effect
deriving Repr, DecidableEq

/-- One `updatePeerSettings` POST (lines 586-607); the counter selects the
response from the environment. -/
def pushPeer (env : Env) (s : RegState) (_p : RPeer) : RegState :=
  if update_wgdashboard_peer (env.api s.kapi) then
    { s with apiSuccess := s.apiSuccess + 1, kapi := s.kapi + 1 }
  else
    { s with apiFailed := s.apiFailed + 1, kapi := s.kapi + 1 }

/-- Registration of one summarized entity (lines 575-609): entities with
no peers are skipped; a failed interface start counts every peer as failed
and moves on (no stop); otherwise each peer is pushed and the interface is
stopped again. -/
def registerEntity (env : Env) (st : RegState) (e : SummaryEntry) : RegState :=
  if e.peers.isEmpty then st
  else
    let running := env.ifaceRunning e.name
    let st1 := { st with effects := st.effects
                  ++ (if running then [] else [Effect.ifaceUp e.name]) }
    if running || env.ifaceStartOK e.name then
      let st2 := e.peers.foldl (pushPeer env) st1
      { st2 with effects := st2.effects ++ [Effect.ifaceDown e.name] }
    else
      { st1 with apiFailed := st1.apiFailed + e.peers.length }

/-! ## The whole run (`main`, lines 391-643) -/

/-- The result of a completed (non-fatal) run. -/
structure RunResult where
  total : Nat
  created : Nat
  skipped : Nat
  errors : Nat
  summary : List SummaryEntry
  processed : List String
  apiSuccess : Nat
  apiFailed : Nat
  files : List String
deriving Repr, DecidableEq

/-- One iteration of the delete-only loop (lines 474-482): report in
dry-run, otherwise delete interface and routes and unlink the record when
present. The pair carries the remaining stems and the effect trace. -/
def deleteOnlyStep (cfg : Cfg) (env : Env) (acc : List String × List Effect)
    (name : String) : List String × List Effect :=
  if cfg.dryRun then
    (acc.1, acc.2 ++ [Effect.wouldDelete name])
  else
    (acc.1.filter (fun s => s ≠ name),
     acc.2 ++ delete_interface_and_routes (env.ifaceRunning name) name
          cfg.peer_allowed_ips
        ++ (if acc.1.contains name then [Effect.deleteFile name] else []))

/-- `main` after start-up validation: dependency check and handshake,
target-directory preparation, the optional delete-existing sweep, then
either the delete-only branch or pre-creation cleanup, the creation loop
and the registration phase. Produces the effect trace and either the
fatal exit or the run result. -/
def mainModel (cfg : Cfg) (env : Env) : List Effect × Except Fatal RunResult :=
  let effs0 := [Effect.depCheck, Effect.handshake]
  if !env.handshakeOK then (effs0, Except.error Fatal.handshakeFailed)
  else
    let effs1 := effs0 ++ (if cfg.dryRun then [] else [Effect.mkdirTarget])
    if !cfg.dryRun && !env.writeAccess then (effs1, Except.error Fatal.noWriteAccess)
    else
      let deleted := if cfg.deleteExisting && !cfg.dryRun then
          delete_existing_configs env.files0 (some (scopeList cfg)) else []
      let files1 := env.files0.filter (fun s => !deleted.contains s)
      let effs2 := effs1 ++ deleted.map Effect.deleteFile
      if cfg.deleteOnly then
        let purged := if cfg.dryRun then [] else
          purge_wgdashboard_tables_for env.dbExists env.tables (scopeList cfg)
        let dres := (scopeList cfg).foldl (deleteOnlyStep cfg env)
          (files1, effs2 ++ purged.map Effect.purgeTable)
        (dres.2, Except.ok { total := 0, created := 0, skipped := 0, errors := 0,
                             summary := [], processed := [], apiSuccess := 0,
                             apiFailed := 0, files := dres.1 })
      else
        let cres := if cfg.dryRun then ([], false) else run_pre_creation_cleanup env
        let effs3 := effs2 ++ cres.1
        if cres.2 then (effs3, Except.error Fatal.serviceInactive)
        else
          let st := (scopeList cfg).foldl (processName cfg env)
            { files := files1, k := 0, total := 0, created := 0, skipped := 0,
              errors := 0, summary := [], processed := [], effects := [] }
          let effs4 := effs3 ++ st.effects
          if !cfg.dryRun && decide (0 < st.created) then
            if env.restartChoice && !env.activeAfterRestart then
              (effs4 ++ [Effect.serviceRestart], Except.error Fatal.serviceInactive)
            else
              let effs5 := effs4
                ++ (if env.restartChoice then [Effect.serviceRestart] else [])
              let rs := st.summary.foldl (registerEntity env)
                { apiSuccess := 0, apiFailed := 0, kapi := 0, effects := [] }
              (effs5 ++ rs.effects,
               Except.ok { total := st.total, created := st.created,
                           skipped := st.skipped, errors := st.errors,
                           summary := st.summary, processed := st.processed,
                           apiSuccess := rs.apiSuccess, apiFailed := rs.apiFailed,
                           files := st.files })
          else
            (effs4, Except.ok { total := st.total, created := st.created,
                                skipped := st.skipped, errors := st.errors,
                                summary := st.summary, processed := st.processed,
                                apiSuccess := 0, apiFailed := 0, files := st.files })

/-- C5: `update_wgdashboard_peer` returns success iff the HTTP status is
200 and the decoded body's success field (`"status"`) is JSON `true`; in
particular HTTP 200 with `{"status": false}`, a missing field, an
undecodable body, and a network error are all reported as failure (and a
network error returns `False` rather than raising). -/
theorem C5_update_peer_success_iff (r : UpdateResp) :
    (update_wgdashboard_peer r = true ↔
      r = UpdateResp.httpResp 200 (UpdateBody.obj (some JField.jtrue))) ∧
    update_wgdashboard_peer
      (UpdateResp.httpResp 200 (UpdateBody.obj (some JField.jfalse))) = false ∧
    update_wgdashboard_peer (UpdateResp.httpResp 200 (UpdateBody.obj none)) = false ∧
    update_wgdashboard_peer (UpdateResp.httpResp 200 UpdateBody.malformed) = false ∧
    update_wgdashboard_peer UpdateResp.netError = false := by
  refine ⟨?_, rfl, rfl, rfl, rfl⟩
  cases r with
  | netError => simp [update_wgdashboard_peer]
  | httpResp status body =>
    by_cases hs : status = 200
    · subst hs
      cases body with
      | malformed => simp [update_wgdashboard_peer]
      | obj f =>
        cases f with
        | none => simp [update_wgdashboard_peer]
        | some j => cases j <;> simp [update_wgdashboard_peer]
    · simp [update_wgdashboard_peer, hs]

/-- The delete-only configuration with prefix `APW` and range 2..2 used
in the C9 instance. -/
def cfgC9 : Cfg :=
  { pfx := "APW", startNum := 2, endNum := 2, address := "10.0.0.1/24",
    listen_port := "51820", peer_allowed_ips := "10.0.0.2/32",
    deleteExisting := false, dryRun := false, deleteOnly := true,
    extraPeers := [] }

/-- C9: the delete-only store purge selects tables by name-prefix pattern
(`f"{n}%"`), so there are scopes for which it clears tables whose names
are not in the computed name set: with prefix `APW` and range 2..2 (digit
width 1) the single scope name is `APW2`, and its pattern also clears a
table named `APW20` even though `APW20` is not a scope name. -/
theorem C9_purge_overmatch :
    scopeList cfgC9 = ["APW2"] ∧
    purge_wgdashboard_tables_for true ["APW20"] (scopeList cfgC9) = ["APW20"] ∧
    "APW20" ∉ names_in_scope "APW" 2 2 := by
  refine ⟨by decide, by decide, ?_⟩
  simp only [names_in_scope, Finset.mem_image]
  decide

/-! ## Creation-loop invariants -/

theorem genPeers_k_le (keygen : Nat → Option KeyPair) :
    ∀ (tpls : List PeerTemplate) (k : Nat), k ≤ (genPeers keygen k tpls).2 := by
  intro tpls
  induction tpls with
  | nil => intro k; simp [genPeers]
  | cons t ts ih =>
    intro k
    simp only [genPeers]
    cases keygen k with
    | none => simp
    | some kp =>
      have h := ih (k + 1)
      rcases hg : genPeers keygen (k + 1) ts with ⟨o, k2⟩
      rw [hg] at h
      cases o <;> simpa using by omega

theorem processName_processed (cfg : Cfg) (env : Env) (st : LoopState)
    (name : String) :
    (processName cfg env st name).processed = st.processed ++ [name] := by
  simp only [processName]
  split
  · rfl
  · split
    · rfl
    · split
      · rfl
      · split <;> rfl

theorem processName_total (cfg : Cfg) (env : Env) (st : LoopState)
    (name : String) :
    (processName cfg env st name).total = st.total + 1 := by
  simp only [processName]
  split
  · rfl
  · split
    · rfl
    · split
      · rfl
      · split <;> rfl

theorem foldl_processName_processed (cfg : Cfg) (env : Env) :
    ∀ (names : List String) (st : LoopState),
      (names.foldl (processName cfg env) st).processed = st.processed ++ names := by
  intro names
  induction names with
  | nil => intro st; simp
  | cons n ns ih =>
    intro st
    rw [List.foldl_cons, ih, processName_processed]
    simp

theorem foldl_processName_total (cfg : Cfg) (env : Env) :
    ∀ (names : List String) (st : LoopState),
      (names.foldl (processName cfg env) st).total = st.total + names.length := by
  intro names
  induction names with
  | nil => intro st; simp
  | cons n ns ih =>
    intro st
    rw [List.foldl_cons, ih, processName_total]
    simp only [List.length_cons]
    omega

/-! ## Registration-phase invariants -/

/-- Total number of peers across summary entries. -/
def peerCount (sm : List SummaryEntry) : Nat :=
  (sm.map (fun e => e.peers.length)).sum

theorem foldl_pushPeer_sum (env : Env) :
    ∀ (ps : List RPeer) (s : RegState),
      (ps.foldl (pushPeer env) s).apiSuccess + (ps.foldl (pushPeer env) s).apiFailed
        = s.apiSuccess + s.apiFailed + ps.length := by
  intro ps
  induction ps with
  | nil => intro s; simp
  | cons p ps ih =>
    intro s
    rw [List.foldl_cons, ih]
    simp only [pushPeer, List.length_cons]
    split <;> simp <;> omega

theorem registerEntity_sum (env : Env) (st : RegState) (e : SummaryEntry) :
    (registerEntity env st e).apiSuccess + (registerEntity env st e).apiFailed
      = st.apiSuccess + st.apiFailed + e.peers.length := by
  simp only [registerEntity]
  split
  · rename_i hemp
    rw [List.isEmpty_iff] at hemp
    simp [hemp]
  · split
    · have h := foldl_pushPeer_sum env e.peers
        { st with effects := st.effects
            ++ (if env.ifaceRunning e.name then [] else [Effect.ifaceUp e.name]) }
      simpa using h
    · simp
      omega

theorem foldl_register_sum (env : Env) :
    ∀ (entries : List SummaryEntry) (st : RegState),
      (entries.foldl (registerEntity env) st).apiSuccess
          + (entries.foldl (registerEntity env) st).apiFailed
        = st.apiSuccess + st.apiFailed + peerCount entries := by
  intro entries
  induction entries with
  | nil => intro st; simp [peerCount]
  | cons e es ih =>
    intro st
    rw [List.foldl_cons, ih, registerEntity_sum]
    simp only [peerCount, List.map_cons, List.sum_cons]
    omega

/-- C1: once a run has passed start-up validation (handshake succeeded,
target writable) and is not in delete-only mode, failures confined to one
entity or one peer never abort the batch — the run either fatally aborts
because the service did not become active after a restart, or completes
with every name in the range processed in order and, when the API phase
ran, every peer of every summarized entity accounted for as success or
failure. -/
theorem C1_failure_policy (cfg : Cfg) (env : Env)
    (h1 : env.handshakeOK = true) (h2 : env.writeAccess = true)
    (h3 : cfg.deleteOnly = false) :
    (mainModel cfg env).2 = Except.error Fatal.serviceInactive ∨
    ∃ r, (mainModel cfg env).2 = Except.ok r ∧
      r.processed = scopeList cfg ∧
      r.total = (scopeList cfg).length ∧
      (cfg.dryRun = false → 0 < r.created →
        r.apiSuccess + r.apiFailed = peerCount r.summary) := by
  simp only [mainModel, h1, h2, h3, Bool.not_true, Bool.and_false,
    Bool.false_eq_true, if_false]
  by_cases hdry : cfg.dryRun = true
  · simp only [hdry, if_true, Bool.not_true, Bool.false_and, Bool.false_eq_true,
      if_false]
    right
    refine ⟨_, rfl, ?_, ?_, ?_⟩
    · simp [foldl_processName_processed]
    · simp [foldl_processName_total]
    · intro hd _
      exact absurd hd (by simp)
  · have hdry2 : cfg.dryRun = false := by simpa using hdry
    simp only [hdry2, Bool.not_false, Bool.true_and, Bool.false_eq_true, if_false]
    by_cases hclean : (run_pre_creation_cleanup env).2 = true
    · rw [if_pos hclean]
      left
      rfl
    · rw [if_neg hclean]
      set st := List.foldl (processName cfg env)
        { files := List.filter
            (fun s => !(if (cfg.deleteExisting && true) = true then
                delete_existing_configs env.files0 (some (scopeList cfg))
              else []).contains s) env.files0,
          k := 0, total := 0, created := 0, skipped := 0, errors := 0,
          summary := [], processed := [], effects := [] }
        (scopeList cfg) with hst
      by_cases hcr : 0 < st.created
      · rw [if_pos (decide_eq_true hcr)]
        by_cases hrc : (env.restartChoice && !env.activeAfterRestart) = true
        · rw [if_pos hrc]
          left
          rfl
        · rw [if_neg hrc]
          right
          refine ⟨_, rfl, ?_, ?_, ?_⟩
          · show st.processed = scopeList cfg
            rw [hst, foldl_processName_processed]
            simp
          · show st.total = (scopeList cfg).length
            rw [hst, foldl_processName_total]
            simp
          · intro _ _
            have h := foldl_register_sum env st.summary
              { apiSuccess := 0, apiFailed := 0, kapi := 0, effects := [] }
            simpa using h
      · rw [if_neg (by simpa using hcr)]
        right
        refine ⟨_, rfl, ?_, ?_, ?_⟩
        · show st.processed = scopeList cfg
          rw [hst, foldl_processName_processed]
          simp
        · show st.total = (scopeList cfg).length
          rw [hst, foldl_processName_total]
          simp
        · intro _ hc
          exact absurd hc hcr

/-- A concrete two-name run configuration with one peer template, used by
witnesses. -/
def cfgW : Cfg :=
  { pfx := "APW", startNum := 1, endNum := 2, address := "10.0.0.1/24",
    listen_port := "51820", peer_allowed_ips := "10.0.0.2/32",
    deleteExisting := false, dryRun := false, deleteOnly := false,
    extraPeers := [{ name := "p1", public_key := "", allowed_ips := "10.0.0.2/32",
                     endpoint := "", keepalive := "25" }] }

/-- A concrete benign environment used by witnesses: empty target
directory, all external calls succeed, every key-generation call yields a
pair derived from its call index. -/
def envW : Env :=
  { files0 := [], keygen := fun k => some { priv := strOfNat k, pub := strOfNat k },
    handshakeOK := true, writeAccess := true, stopOK := true,
    activeAfterCleanup := true, restartChoice := false, activeAfterRestart := true,
    ifaceRunning := fun _ => false, ifaceStartOK := fun _ => true,
    api := fun _ => UpdateResp.httpResp 200 (UpdateBody.obj (some JField.jtrue)),
    dbExists := false, tables := [] }

/-- Witness for C1 at the concrete configuration and environment. -/
theorem C1_failure_policy_witness :
    (mainModel cfgW envW).2 = Except.error Fatal.serviceInactive ∨
    ∃ r, (mainModel cfgW envW).2 = Except.ok r ∧
      r.processed = scopeList cfgW ∧
      r.total = (scopeList cfgW).length ∧
      (cfgW.dryRun = false → 0 < r.created →
        r.apiSuccess + r.apiFailed = peerCount r.summary) :=
  C1_failure_policy cfgW envW rfl rfl rfl

/-! ## Idempotence of the creation loop -/

theorem genPeers_isSome (keygen : Nat → Option KeyPair)
    (hks : ∀ j, (keygen j).isSome = true) :
    ∀ (tpls : List PeerTemplate) (k : Nat),
      (genPeers keygen k tpls).1.isSome = true := by
  intro tpls
  induction tpls with
  | nil => intro k; simp [genPeers]
  | cons t ts ih =>
    intro k
    simp only [genPeers]
    rcases hk : keygen k with _ | kp
    · have h := hks k
      rw [hk] at h
      simp at h
    · rcases hg : genPeers keygen (k + 1) ts with ⟨o, k2⟩
      have h := ih (k + 1)
      rw [hg] at h
      cases o
      · simp at h
      · simp

theorem processName_files_mono (cfg : Cfg) (env : Env) (st : LoopState)
    (name : String) : ∀ s ∈ st.files, s ∈ (processName cfg env st name).files := by
  intro s hs
  simp only [processName]
  split
  · exact hs
  · split
    · exact hs
    · split
      · exact hs
      · split
        · exact hs
        · exact List.mem_append_left _ hs

theorem processName_mem_files (cfg : Cfg) (env : Env)
    (hks : ∀ j, (env.keygen j).isSome = true) (hdry : cfg.dryRun = false)
    (st : LoopState) (name : String) :
    name ∈ (processName cfg env st name).files := by
  simp only [processName]
  split
  · rename_i hcond
    rw [Bool.and_eq_true] at hcond
    exact List.mem_of_elem_eq_true hcond.1
  · split
    · rename_i hk
      have h := hks st.k
      rw [hk] at h
      simp at h
    · split
      · rename_i ps k2 hg
        have h := genPeers_isSome env.keygen hks cfg.extraPeers (st.k + 1)
        rw [hg] at h
        simp at h
      · split
        · rename_i hd
          rw [hdry] at hd
          simp at hd
        · exact List.mem_append_right _ (List.mem_singleton.mpr rfl)

theorem foldl_files_mono (cfg : Cfg) (env : Env) :
    ∀ (names : List String) (st : LoopState) (s : String), s ∈ st.files →
      s ∈ (names.foldl (processName cfg env) st).files := by
  intro names
  induction names with
  | nil => intro st s hs; exact hs
  | cons n ns ih =>
    intro st s hs
    rw [List.foldl_cons]
    exact ih _ s (processName_files_mono cfg env st n s hs)

theorem foldl_files_cover (cfg : Cfg) (env : Env)
    (hks : ∀ j, (env.keygen j).isSome = true) (hdry : cfg.dryRun = false) :
    ∀ (names : List String) (st : LoopState),
      ∀ n ∈ names, n ∈ (names.foldl (processName cfg env) st).files := by
  intro names
  induction names with
  | nil => intro st n hn; cases hn
  | cons m ns ih =>
    intro st n hn
    rw [List.foldl_cons]
    rcases List.mem_cons.mp hn with rfl | hn
    · exact foldl_files_mono cfg env ns _ n
        (processName_mem_files cfg env hks hdry st n)
    · exact ih _ n hn

theorem processName_skip (cfg : Cfg) (env : Env) (st : LoopState) (name : String)
    (hde : cfg.deleteExisting = false) (hmem : name ∈ st.files) :
    processName cfg env st name =
      { st with total := st.total + 1, skipped := st.skipped + 1,
                processed := st.processed ++ [name] } := by
  have hc : st.files.contains name = true := List.elem_eq_true_of_mem hmem
  simp only [processName, hde, Bool.not_false, Bool.and_true]
  rw [if_pos hc]

theorem foldl_all_skip (cfg : Cfg) (env : Env) (hde : cfg.deleteExisting = false) :
    ∀ (names : List String) (st : LoopState), (∀ n ∈ names, n ∈ st.files) →
      names.foldl (processName cfg env) st =
        { st with total := st.total + names.length,
                  skipped := st.skipped + names.length,
                  processed := st.processed ++ names } := by
  intro names
  induction names with
  | nil => intro st h; simp
  | cons n ns ih =>
    intro st h
    rw [List.foldl_cons, processName_skip cfg env st n hde (h n (List.mem_cons_self _ _))]
    rw [ih
      { st with
        total := st.total + 1
        skipped := st.skipped + 1
        processed := st.processed ++ [n] }
      (fun m hm => h m (List.mem_cons_of_mem _ hm))]
    simp only [List.length_cons, List.append_assoc, List.singleton_append]
    congr 1 <;> omega

theorem cleanup_not_fatal (env : Env) (h : env.activeAfterCleanup = true) :
    (run_pre_creation_cleanup env).2 = false := by
  simp only [run_pre_creation_cleanup, h]
  split <;> simp

/-- C3: running the creation path twice over the same range and
configuration, without `--delete-existing` and not in dry-run mode,
yields zero created entities on the second run and marks every name in
scope as skipped — provided the first run persisted its records (all key
generation succeeded) and the second run starts from the directory state
the first run left behind. -/
theorem C3_idempotence (cfg : Cfg) (env1 env2 : Env)
    (hdry : cfg.dryRun = false) (hde : cfg.deleteExisting = false)
    (hdo : cfg.deleteOnly = false)
    (hh1 : env1.handshakeOK = true) (hw1 : env1.writeAccess = true)
    (hks : ∀ j, (env1.keygen j).isSome = true)
    (hac1 : env1.activeAfterCleanup = true)
    (har1 : env1.activeAfterRestart = true)
    (hh2 : env2.handshakeOK = true) (hw2 : env2.writeAccess = true)
    (hac2 : env2.activeAfterCleanup = true) :
    ∃ r1 r2, (mainModel cfg env1).2 = Except.ok r1 ∧
      (mainModel cfg { env2 with files0 := r1.files }).2 = Except.ok r2 ∧
      r2.created = 0 ∧ r2.skipped = (scopeList cfg).length ∧
      r2.total = (scopeList cfg).length ∧ r2.summary = [] := by
  have h1 : ∃ r1, (mainModel cfg env1).2 = Except.ok r1 ∧
      (∀ n ∈ scopeList cfg, n ∈ r1.files) := by
    simp only [mainModel, hh1, hw1, hdo, hdry, Bool.not_true, Bool.and_false,
      Bool.false_eq_true, if_false, Bool.not_false, Bool.true_and]
    rw [if_neg (by simp [cleanup_not_fatal env1 hac1])]
    set st := List.foldl (processName cfg env1)
      { files := List.filter
          (fun s => !(if (cfg.deleteExisting && true) = true then
              delete_existing_configs env1.files0 (some (scopeList cfg))
            else []).contains s) env1.files0,
        k := 0, total := 0, created := 0, skipped := 0, errors := 0,
        summary := [], processed := [], effects := [] }
      (scopeList cfg) with hst
    by_cases hcr : 0 < st.created
    · rw [if_pos (decide_eq_true hcr)]
      rw [if_neg (by simp [har1])]
      refine ⟨_, rfl, ?_⟩
      intro n hn
      show n ∈ st.files
      rw [hst]
      exact foldl_files_cover cfg env1 hks hdry _ _ n hn
    · rw [if_neg (by simpa using hcr)]
      refine ⟨_, rfl, ?_⟩
      intro n hn
      show n ∈ st.files
      rw [hst]
      exact foldl_files_cover cfg env1 hks hdry _ _ n hn
  obtain ⟨r1, hr1, hcov⟩ := h1
  have h2 : ∃ r2, (mainModel cfg { env2 with files0 := r1.files }).2 = Except.ok r2 ∧
      r2.created = 0 ∧ r2.skipped = (scopeList cfg).length ∧
      r2.total = (scopeList cfg).length ∧ r2.summary = [] := by
    simp only [mainModel, hdo, hdry, hde, Bool.not_true, Bool.and_false,
      Bool.false_eq_true, if_false, Bool.not_false, Bool.true_and, Bool.false_and,
      List.elem_eq_mem, List.not_mem_nil, decide_False, List.filter_true]
    rw [if_neg (by simp [hh2])]
    rw [if_neg (by simp [hw2])]
    rw [if_neg (by simp [cleanup_not_fatal { env2 with files0 := r1.files } hac2])]
    rw [foldl_all_skip cfg { env2 with files0 := r1.files } hde (scopeList cfg)
      { files := r1.files, k := 0, total := 0, created := 0, skipped := 0,
        errors := 0, summary := [], processed := [], effects := [] }
      hcov]
    rw [if_neg (by simp)]
    refine ⟨_, rfl, rfl, ?_, ?_, rfl⟩
    · simp
    · simp
  obtain ⟨r2, hr2, hp1, hp2, hp3, hp4⟩ := h2
  exact ⟨r1, r2, hr1, hr2, hp1, hp2, hp3, hp4⟩

/-- Witness for C3 at the concrete configuration and environment. -/
theorem C3_idempotence_witness :
    ∃ r1 r2, (mainModel cfgW envW).2 = Except.ok r1 ∧
      (mainModel cfgW { envW with files0 := r1.files }).2 = Except.ok r2 ∧
      r2.created = 0 ∧ r2.skipped = (scopeList cfgW).length ∧
      r2.total = (scopeList cfgW).length ∧ r2.summary = [] :=
  C3_idempotence cfgW envW envW rfl rfl rfl rfl rfl (fun _ => rfl) rfl rfl rfl rfl rfl

/-! ## Dry-run frame lemmas -/

theorem processName_effects_dry (cfg : Cfg) (env : Env) (hdry : cfg.dryRun = true)
    (st : LoopState) (name : String) :
    ∀ e ∈ (processName cfg env st name).effects,
      e ∈ st.effects ∨ e = Effect.wouldCreate name := by
  intro e
  simp only [processName]
  split
  · intro he; exact Or.inl he
  · split
    · intro he; exact Or.inl he
    · split
      · intro he; exact Or.inl he
      · intro he
        rcases List.mem_append.mp he with h | h
        · exact Or.inl h
        · right
          simpa using h

theorem foldl_effects_dry (cfg : Cfg) (env : Env) (hdry : cfg.dryRun = true) :
    ∀ (names : List String) (st : LoopState),
      ∀ e ∈ (names.foldl (processName cfg env) st).effects,
        e ∈ st.effects ∨ ∃ n, e = Effect.wouldCreate n := by
  intro names
  induction names with
  | nil => intro st e he; exact Or.inl he
  | cons n ns ih =>
    intro st e he
    rw [List.foldl_cons] at he
    rcases ih _ e he with h | h
    · rcases processName_effects_dry cfg env hdry st n e h with h2 | h2
      · exact Or.inl h2
      · exact Or.inr ⟨n, h2⟩
    · exact Or.inr h

theorem processName_files_dry (cfg : Cfg) (env : Env) (hdry : cfg.dryRun = true)
    (st : LoopState) (name : String) :
    (processName cfg env st name).files = st.files := by
  simp only [processName]
  split
  · rfl
  · split
    · rfl
    · split
      · rfl
      · rfl

theorem foldl_files_dry (cfg : Cfg) (env : Env) (hdry : cfg.dryRun = true) :
    ∀ (names : List String) (st : LoopState),
      (names.foldl (processName cfg env) st).files = st.files := by
  intro names
  induction names with
  | nil => intro st; rfl
  | cons n ns ih =>
    intro st
    rw [List.foldl_cons, ih, processName_files_dry cfg env hdry]

theorem processName_created_summary (cfg : Cfg) (env : Env) (st : LoopState)
    (name : String) :
    (processName cfg env st name).created + st.summary.length
      = st.created + (processName cfg env st name).summary.length := by
  simp only [processName]
  split
  · rfl
  · split
    · rfl
    · split
      · rfl
      · split <;> simp <;> omega

theorem foldl_created_summary (cfg : Cfg) (env : Env) :
    ∀ (names : List String) (st : LoopState),
      (names.foldl (processName cfg env) st).created + st.summary.length
        = st.created + (names.foldl (processName cfg env) st).summary.length := by
  intro names
  induction names with
  | nil => intro st; rfl
  | cons n ns ih =>
    intro st
    rw [List.foldl_cons]
    have h1 := processName_created_summary cfg env st n
    have h2 := ih (processName cfg env st n)
    omega

theorem processName_counters (cfg : Cfg) (env : Env) (st : LoopState)
    (name : String) :
    (processName cfg env st name).created + (processName cfg env st name).skipped
        + (processName cfg env st name).errors
      = st.created + st.skipped + st.errors + 1 := by
  simp only [processName]
  split
  · simp
    omega
  · split
    · simp
      omega
    · split
      · simp
        omega
      · split <;> (simp; omega)

theorem foldl_counters (cfg : Cfg) (env : Env) :
    ∀ (names : List String) (st : LoopState),
      (names.foldl (processName cfg env) st).created
          + (names.foldl (processName cfg env) st).skipped
          + (names.foldl (processName cfg env) st).errors
        = st.created + st.skipped + st.errors + names.length := by
  intro names
  induction names with
  | nil => intro st; simp
  | cons n ns ih =>
    intro st
    rw [List.foldl_cons]
    have h1 := processName_counters cfg env st n
    have h2 := ih (processName cfg env st n)
    simp only [List.length_cons]
    omega

theorem deleteOnly_foldl_mono (cfg : Cfg) (env : Env) :
    ∀ (names : List String) (acc : List String × List Effect),
      ∀ e ∈ acc.2, e ∈ (names.foldl (deleteOnlyStep cfg env) acc).2 := by
  intro names
  induction names with
  | nil => intro acc e he; exact he
  | cons n ns ih =>
    intro acc e he
    rw [List.foldl_cons]
    apply ih
    simp only [deleteOnlyStep]
    split
    · exact List.mem_append_left _ he
    · exact List.mem_append_left _ (List.mem_append_left _ he)

theorem deleteOnly_foldl_dry (cfg : Cfg) (env : Env) (hdry : cfg.dryRun = true) :
    ∀ (names : List String) (acc : List String × List Effect),
      (∀ e ∈ (names.foldl (deleteOnlyStep cfg env) acc).2,
        e ∈ acc.2 ∨ ∃ n, e = Effect.wouldDelete n) ∧
      (names.foldl (deleteOnlyStep cfg env) acc).1 = acc.1 := by
  intro names
  induction names with
  | nil => intro acc; exact ⟨fun e he => Or.inl he, rfl⟩
  | cons n ns ih =>
    intro acc
    rw [List.foldl_cons]
    have hstep : deleteOnlyStep cfg env acc n
        = (acc.1, acc.2 ++ [Effect.wouldDelete n]) := by
      simp only [deleteOnlyStep]
      rw [if_pos hdry]
    constructor
    · intro e he
      rw [hstep] at he
      rcases (ih (acc.1, acc.2 ++ [Effect.wouldDelete n])).1 e he with h | h
      · rcases List.mem_append.mp h with h2 | h2
        · exact Or.inl h2
        · exact Or.inr ⟨n, by simpa using h2⟩
      · exact Or.inr h
    · rw [hstep]
      exact (ih (acc.1, acc.2 ++ [Effect.wouldDelete n])).2

/-- C6: a dry run mutates no external state — every effect in its trace
is read-only — while the dependency check and the API handshake are still
performed. -/
theorem C6_dry_run_frame (cfg : Cfg) (env : Env) (hdry : cfg.dryRun = true) :
    (∀ e ∈ (mainModel cfg env).1, e.mutates = false) ∧
    Effect.depCheck ∈ (mainModel cfg env).1 ∧
    Effect.handshake ∈ (mainModel cfg env).1 := by
  by_cases hh : env.handshakeOK = true
  case neg =>
    have hh2 : env.handshakeOK = false := by simpa using hh
    simp only [mainModel, hh2, Bool.not_false, if_true]
    exact ⟨by decide, by decide, by decide⟩
  case pos =>
    simp only [mainModel, hh, hdry, Bool.not_true, Bool.false_and, Bool.and_false,
      Bool.false_eq_true, if_false, Bool.false_eq_true, List.map_nil,
      List.append_nil, ite_self, if_true]
    by_cases hdo : cfg.deleteOnly = true
    · simp only [hdo, if_true]
      refine ⟨?_, ?_, ?_⟩
      · intro e he
        rcases (deleteOnly_foldl_dry cfg env hdry (scopeList cfg) _).1 e he
          with h | ⟨n, rfl⟩
        · rcases List.mem_cons.mp h with rfl | h2
          · rfl
          · rcases List.mem_cons.mp h2 with rfl | h3
            · rfl
            · exact absurd h3 (List.not_mem_nil _)
        · rfl
      · exact deleteOnly_foldl_mono cfg env (scopeList cfg) _ _ (by simp)
      · exact deleteOnly_foldl_mono cfg env (scopeList cfg) _ _ (by simp)
    · simp only [hdo, Bool.false_eq_true, if_false]
      refine ⟨?_, ?_, ?_⟩
      · intro e he
        rcases List.mem_append.mp he with h | h
        · rcases List.mem_cons.mp h with rfl | h2
          · rfl
          · rcases List.mem_cons.mp h2 with rfl | h3
            · rfl
            · exact absurd h3 (List.not_mem_nil _)
        · rcases foldl_effects_dry cfg env hdry (scopeList cfg) _ e h
            with h2 | ⟨n, rfl⟩
          · exact absurd h2 (List.not_mem_nil _)
          · rfl
      · exact List.mem_append_left _ (by simp)
      · exact List.mem_append_left _ (by simp)

/-- The witness configuration in dry-run mode. -/
def cfgWdry : Cfg := { cfgW with dryRun := true }

/-- Witness for C6 at the concrete dry-run configuration. -/
theorem C6_dry_run_frame_witness :
    (∀ e ∈ (mainModel cfgWdry envW).1, e.mutates = false) ∧
    Effect.depCheck ∈ (mainModel cfgWdry envW).1 ∧
    Effect.handshake ∈ (mainModel cfgWdry envW).1 :=
  C6_dry_run_frame cfgWdry envW rfl

/-- C10: in a dry run of the creation path, every entity that passes key
generation is counted as created and appended to the summary
(`created = summary.length`, and the counters partition the range), yet
the directory is unchanged and no config record is written — so the
summary's created count does not imply a persisted record. -/
theorem C10_dry_run_created (cfg : Cfg) (env : Env)
    (hdry : cfg.dryRun = true) (hh : env.handshakeOK = true)
    (hdo : cfg.deleteOnly = false) :
    ∃ r, (mainModel cfg env).2 = Except.ok r ∧
      r.created = r.summary.length ∧
      r.total = r.created + r.skipped + r.errors ∧
      r.files = env.files0 ∧
      ∀ stem text, Effect.writeFile stem text ∉ (mainModel cfg env).1 := by
  simp only [mainModel, hh, hdry, hdo, Bool.not_true, Bool.false_and,
    Bool.and_false, Bool.false_eq_true, if_false, List.map_nil, List.append_nil,
    ite_self, if_true, List.elem_eq_mem, List.not_mem_nil, decide_False,
    Bool.not_false, List.filter_true]
  refine ⟨_, rfl, ?_, ?_, ?_, ?_⟩
  · have h := foldl_created_summary cfg env (scopeList cfg)
      { files := env.files0, k := 0, total := 0, created := 0, skipped := 0,
        errors := 0, summary := [], processed := [], effects := [] }
    simpa using h
  · have h1 := foldl_processName_total cfg env (scopeList cfg)
      { files := env.files0, k := 0, total := 0, created := 0, skipped := 0,
        errors := 0, summary := [], processed := [], effects := [] }
    have h2 := foldl_counters cfg env (scopeList cfg)
      { files := env.files0, k := 0, total := 0, created := 0, skipped := 0,
        errors := 0, summary := [], processed := [], effects := [] }
    dsimp only at h1 h2 ⊢
    omega
  · dsimp only
    rw [foldl_files_dry cfg env hdry]
  · intro stem text hmem
    rcases List.mem_append.mp hmem with h | h
    · rcases List.mem_cons.mp h with heq | h2
      · cases heq
      · rcases List.mem_cons.mp h2 with heq | h3
        · cases heq
        · exact absurd h3 (List.not_mem_nil _)
    · rcases foldl_effects_dry cfg env hdry (scopeList cfg) _ _ h
        with h2 | ⟨n, heq⟩
      · exact absurd h2 (List.not_mem_nil _)
      · cases heq

/-- Witness for C10 at the concrete dry-run configuration. -/
theorem C10_dry_run_created_witness :
    ∃ r, (mainModel cfgWdry envW).2 = Except.ok r ∧
      r.created = r.summary.length ∧
      r.total = r.created + r.skipped + r.errors ∧
      r.files = envW.files0 ∧
      ∀ stem text, Effect.writeFile stem text ∉ (mainModel cfgWdry envW).1 :=
  C10_dry_run_created cfgWdry envW rfl rfl rfl

/-! ## Underscore exclusion (bulk delete) -/

theorem natChars_ne_underscore (n : Nat) : ∀ c ∈ natChars n, c ≠ '_' := by
  intro c hc
  by_cases hn : n = 0
  · subst hn
    rw [show natChars 0 = ['0'] from rfl, List.mem_singleton] at hc
    subst hc
    decide
  · rw [natChars_eq_digits n hn, List.mem_reverse, List.mem_map] at hc
    obtain ⟨d, hd, rfl⟩ := hc
    have hlt : d < 10 := Nat.digits_lt_base (by norm_num) hd
    interval_cases d <;> decide

theorem format_number_data_ne_underscore (num d : Nat) :
    ∀ c ∈ (format_number num d).data, c ≠ '_' := by
  intro c hc
  rcases List.mem_append.mp hc with h | h
  · rw [List.eq_of_mem_replicate h]
    decide
  · exact natChars_ne_underscore num c h

theorem format_number_data_ne_nil (num d : Nat) :
    (format_number num d).data ≠ [] := by
  intro h
  have h1 : (format_number num d).data.length = 0 := by rw [h]; rfl
  have h2 : (format_number num d).length = max d (natChars num).length :=
    format_number_length num d
  have h3 := natChars_length_pos num
  have h4 : (format_number num d).length = (format_number num d).data.length := rfl
  omega

theorem charsStart_underscore_false {l : List Char}
    (h : ∀ c ∈ l, c ≠ '_') (hne : l ≠ []) :
    charsStart ['_'] l = false := by
  rcases l with _ | ⟨c, cs⟩
  · exact absurd rfl hne
  · have hc : ('_' == c) = false :=
      beq_eq_false_iff_ne.mpr (fun heq => h c (List.mem_cons_self _ _) heq.symm)
    simp [charsStart, hc]

theorem strStartsWith_underscore (s : String) :
    strStartsWith s "_" = charsStart ['_'] s.data := rfl

theorem scopeList_not_underscore (cfg : Cfg)
    (hpfx : strStartsWith cfg.pfx "_" = false) :
    ∀ s ∈ scopeList cfg, strStartsWith s "_" = false := by
  intro s hs
  rw [scopeList, List.mem_map] at hs
  obtain ⟨i, _, rfl⟩ := hs
  rw [strStartsWith_underscore, string_append_data]
  rcases hp : cfg.pfx.data with _ | ⟨c, cs⟩
  · rw [List.nil_append]
    exact charsStart_underscore_false
      (format_number_data_ne_underscore i _) (format_number_data_ne_nil i _)
  · rw [List.cons_append]
    rw [strStartsWith_underscore, hp] at hpfx
    have hc : ('_' == c) = false := by simpa [charsStart] using hpfx
    simp [charsStart, hc]

theorem delete_iface_no_delete (running : Bool) (name ips s : String) :
    Effect.deleteFile s ∉ delete_interface_and_routes running name ips := by
  intro h
  simp only [delete_interface_and_routes] at h
  rcases List.mem_append.mp h with h | h
  · rcases List.mem_append.mp h with h | h
    · split at h <;> simp at h
    · simp at h
  · rw [List.mem_map] at h
    obtain ⟨x, _, hx⟩ := h
    cases hx

theorem deleteOnly_foldl_delete_origin (cfg : Cfg) (env : Env) :
    ∀ (names : List String) (acc : List String × List Effect) (s : String),
      Effect.deleteFile s ∈ (names.foldl (deleteOnlyStep cfg env) acc).2 →
        Effect.deleteFile s ∈ acc.2 ∨ s ∈ names := by
  intro names
  induction names with
  | nil => intro acc s h; exact Or.inl h
  | cons n ns ih =>
    intro acc s h
    rw [List.foldl_cons] at h
    rcases ih _ s h with h2 | h2
    · simp only [deleteOnlyStep] at h2
      split at h2
      · rcases List.mem_append.mp h2 with h3 | h3
        · exact Or.inl h3
        · simp at h3
      · rcases List.mem_append.mp h2 with h3 | h3
        · rcases List.mem_append.mp h3 with h4 | h4
          · exact Or.inl h4
          · exact absurd h4 (delete_iface_no_delete _ _ _ _)
        · right
          split at h3
          · rw [List.mem_singleton] at h3
            cases h3
            exact List.mem_cons_self _ _
          · exact absurd h3 (List.not_mem_nil _)
    · exact Or.inr (List.mem_cons_of_mem _ h2)

theorem processName_no_delete (cfg : Cfg) (env : Env) (st : LoopState)
    (name s : String) :
    Effect.deleteFile s ∈ (processName cfg env st name).effects →
      Effect.deleteFile s ∈ st.effects := by
  simp only [processName]
  split
  · exact id
  · split
    · exact id
    · split
      · exact id
      · split
        · intro h
          rcases List.mem_append.mp h with h | h
          · exact h
          · simp at h
        · intro h
          rcases List.mem_append.mp h with h | h
          · exact h
          · simp at h

theorem foldl_processName_no_delete (cfg : Cfg) (env : Env) :
    ∀ (names : List String) (st : LoopState) (s : String),
      Effect.deleteFile s ∈ (names.foldl (processName cfg env) st).effects →
        Effect.deleteFile s ∈ st.effects := by
  intro names
  induction names with
  | nil => intro st s h; exact h
  | cons n ns ih =>
    intro st s h
    rw [List.foldl_cons] at h
    exact processName_no_delete cfg env st n s (ih _ s h)

theorem foldl_pushPeer_effects (env : Env) :
    ∀ (ps : List RPeer) (s : RegState),
      (ps.foldl (pushPeer env) s).effects = s.effects := by
  intro ps
  induction ps with
  | nil => intro s; rfl
  | cons p ps ih =>
    intro s
    rw [List.foldl_cons, ih]
    simp only [pushPeer]
    split <;> rfl

theorem registerEntity_no_delete (env : Env) (st : RegState) (e : SummaryEntry)
    (s : String) :
    Effect.deleteFile s ∈ (registerEntity env st e).effects →
      Effect.deleteFile s ∈ st.effects := by
  simp only [registerEntity]
  split
  · exact id
  · split
    · intro h
      rcases List.mem_append.mp h with h | h
      · rw [foldl_pushPeer_effects] at h
        rcases List.mem_append.mp h with h2 | h2
        · exact h2
        · split at h2 <;> simp at h2
      · simp at h
    · intro h
      rcases List.mem_append.mp h with h2 | h2
      · exact h2
      · split at h2 <;> simp at h2

theorem foldl_register_no_delete (env : Env) :
    ∀ (entries : List SummaryEntry) (st : RegState) (s : String),
      Effect.deleteFile s ∈ (entries.foldl (registerEntity env) st).effects →
        Effect.deleteFile s ∈ st.effects := by
  intro entries
  induction entries with
  | nil => intro st s h; exact h
  | cons e es ih =>
    intro st s h
    rw [List.foldl_cons] at h
    exact registerEntity_no_delete env st e s (ih _ s h)

theorem cleanup_no_delete (env : Env) (s : String) :
    Effect.deleteFile s ∉ (run_pre_creation_cleanup env).1 := by
  intro h
  simp only [run_pre_creation_cleanup] at h
  split at h
  · rcases List.mem_append.mp h with h2 | h2
    · rcases List.mem_append.mp h2 with h3 | h3
      · simp at h3
      · rw [List.mem_map] at h3
        obtain ⟨x, _, hx⟩ := h3
        cases hx
    · simp at h2
  · rcases List.mem_append.mp h with h2 | h2
    · simp at h2
    · rw [List.mem_map] at h2
      obtain ⟨x, _, hx⟩ := h2
      cases hx

theorem base_effects_origin (cfg : Cfg) (env : Env) (s : String)
    (h : Effect.deleteFile s ∈
      (([Effect.depCheck, Effect.handshake]
          ++ (if cfg.dryRun then [] else [Effect.mkdirTarget]))
        ++ ((if cfg.deleteExisting && !cfg.dryRun then
              delete_existing_configs env.files0 (some (scopeList cfg))
            else []).map Effect.deleteFile))) :
    s ∈ delete_existing_configs env.files0 (some (scopeList cfg)) := by
  rcases List.mem_append.mp h with h2 | h2
  · rcases List.mem_append.mp h2 with h3 | h3
    · simp at h3
    · split at h3 <;> simp at h3
  · rw [List.mem_map] at h2
    obtain ⟨x, hx, hx2⟩ := h2
    cases hx2
    split at hx
    · exact hx
    · exact absurd hx (List.not_mem_nil _)

theorem cres_no_delete (cfg : Cfg) (env : Env) (s : String) :
    Effect.deleteFile s ∉
      (if cfg.dryRun then (([] : List Effect), false)
       else run_pre_creation_cleanup env).1 := by
  split
  · exact List.not_mem_nil _
  · exact cleanup_no_delete env s

/-- Membership in the mapped sweep effects pins the stem to the sweep. -/
theorem sweep_effects_origin {c : Prop} [Decidable c] (env : Env)
    (names : List String) (s : String)
    (h : Effect.deleteFile s ∈
      (if c then delete_existing_configs env.files0 (some names)
       else []).map Effect.deleteFile) :
    s ∈ delete_existing_configs env.files0 (some names) := by
  rw [List.mem_map] at h
  obtain ⟨x, hx, hx2⟩ := h
  cases hx2
  split at hx
  · exact hx
  · exact absurd hx (List.not_mem_nil _)

/-- Every `deleteFile` effect of a run originates either in the
`--delete-existing` sweep or in the delete-only loop over the scope. -/
theorem mainModel_delete_origin (cfg : Cfg) (env : Env) (s : String)
    (h : Effect.deleteFile s ∈ (mainModel cfg env).1) :
    s ∈ delete_existing_configs env.files0 (some (scopeList cfg)) ∨
      s ∈ scopeList cfg := by
  by_cases hdry : cfg.dryRun = true
  · exfalso
    by_cases hh : env.handshakeOK = true
    case neg =>
      have hh2 : env.handshakeOK = false := by simpa using hh
      simp [mainModel, hh2] at h
    case pos =>
      simp only [mainModel, hh, hdry, Bool.not_true, Bool.false_and,
        Bool.and_false, Bool.false_eq_true, if_false, List.map_nil,
        List.append_nil, ite_self, if_true] at h
      by_cases hdo : cfg.deleteOnly = true
      · simp only [hdo, if_true] at h
        rcases (deleteOnly_foldl_dry cfg env hdry (scopeList cfg) _).1 _ h
          with h2 | ⟨n, heq⟩
        · simp at h2
        · cases heq
      · simp only [hdo, Bool.false_eq_true, if_false] at h
        rcases List.mem_append.mp h with h2 | h2
        · simp at h2
        · rcases foldl_effects_dry cfg env hdry (scopeList cfg) _ _ h2
            with h3 | ⟨n, heq⟩
          · simp at h3
          · cases heq
  · have hdry2 : cfg.dryRun = false := by simpa using hdry
    by_cases hh : env.handshakeOK = true
    case neg =>
      have hh2 : env.handshakeOK = false := by simpa using hh
      simp [mainModel, hh2] at h
    case pos =>
      simp only [mainModel, hdry2, Bool.not_false, Bool.true_and, Bool.and_true,
        Bool.false_eq_true, if_false] at h
      rw [if_neg (by simp [hh])] at h
      by_cases hw : env.writeAccess = true
      case neg =>
        have hw2 : env.writeAccess = false := by simpa using hw
        rw [if_pos (by simp [hw2])] at h
        simp at h
      case pos =>
        rw [if_neg (by simp [hw])] at h
        by_cases hdo : cfg.deleteOnly = true
        · rw [if_pos hdo] at h
          rcases deleteOnly_foldl_delete_origin cfg env _ _ s h with h2 | h2
          · rcases List.mem_append.mp h2 with h3 | h3
            · rcases List.mem_append.mp h3 with h4 | h4
              · simp at h4
              · exact Or.inl (sweep_effects_origin env _ s h4)
            · rw [List.mem_map] at h3
              obtain ⟨x, _, hx⟩ := h3
              cases hx
          · exact Or.inr h2
        · rw [if_neg hdo] at h
          by_cases hcl : (run_pre_creation_cleanup env).2 = true
          · rw [if_pos hcl] at h
            rcases List.mem_append.mp h with h2 | h2
            · rcases List.mem_append.mp h2 with h3 | h3
              · simp at h3
              · exact Or.inl (sweep_effects_origin env _ s h3)
            · exact absurd h2 (cleanup_no_delete env s)
          · rw [if_neg hcl] at h
            by_cases hcr : (decide (0 <
                (List.foldl (processName cfg env)
                  { files := List.filter
                      (fun s => !(if cfg.deleteExisting = true then
                          delete_existing_configs env.files0 (some (scopeList cfg))
                        else []).contains s) env.files0,
                    k := 0, total := 0, created := 0, skipped := 0, errors := 0,
                    summary := [], processed := [], effects := [] }
                  (scopeList cfg)).created)) = true
            · rw [if_pos hcr] at h
              by_cases hrc : (env.restartChoice && !env.activeAfterRestart) = true
              · rw [if_pos hrc] at h
                rcases List.mem_append.mp h with h2 | h2
                · rcases List.mem_append.mp h2 with h3 | h3
                  · rcases List.mem_append.mp h3 with h4 | h4
                    · rcases List.mem_append.mp h4 with h5 | h5
                      · simp at h5
                      · exact Or.inl (sweep_effects_origin env _ s h5)
                    · exact absurd h4 (cleanup_no_delete env s)
                  · have h4 := foldl_processName_no_delete cfg env (scopeList cfg) _ s h3
                    simp at h4
                · simp at h2
              · rw [if_neg hrc] at h
                rcases List.mem_append.mp h with h2 | h2
                · rcases List.mem_append.mp h2 with h3 | h3
                  · rcases List.mem_append.mp h3 with h4 | h4
                    · rcases List.mem_append.mp h4 with h5 | h5
                      · rcases List.mem_append.mp h5 with h6 | h6
                        · simp at h6
                        · exact Or.inl (sweep_effects_origin env _ s h6)
                      · exact absurd h5 (cleanup_no_delete env s)
                    · have h5 := foldl_processName_no_delete cfg env (scopeList cfg) _ s h4
                      simp at h5
                  · split at h3 <;> simp at h3
                · have h3 := foldl_register_no_delete env _ _ s h2
                  simp at h3
            · rw [if_neg hcr] at h
              rcases List.mem_append.mp h with h2 | h2
              · rcases List.mem_append.mp h2 with h3 | h3
                · rcases List.mem_append.mp h3 with h4 | h4
                  · simp at h4
                  · exact Or.inl (sweep_effects_origin env _ s h4)
                · exact absurd h3 (cleanup_no_delete env s)
              · have h3 := foldl_processName_no_delete cfg env (scopeList cfg) _ s h2
                simp at h3

/-- C4 counterexample configuration: delete-only with an underscore
prefix and range 2..2. -/
def cfgC4 : Cfg :=
  { pfx := "_1", startNum := 2, endNum := 2, address := "10.0.0.1/24",
    listen_port := "51820", peer_allowed_ips := "10.0.0.2/32",
    deleteExisting := false, dryRun := false, deleteOnly := true,
    extraPeers := [] }

/-- C4 counterexample environment: the target directory holds `_12.conf`. -/
def envC4 : Env := { envW with files0 := ["_12"] }

/-- C4 is false as stated: in the delete-only path with prefix `_1` and
range 2..2, the record `_12.conf` — whose name starts with an underscore
and whose stem is in the computed scope — is deleted by bulk delete. -/
theorem C4_underscore_counterexample :
    Effect.deleteFile "_12" ∈ (mainModel cfgC4 envC4).1 ∧
    strStartsWith "_12" "_" = true ∧
    "_12" ∈ scopeList cfgC4 :=
  ⟨by decide, by decide, by decide⟩

/-- C4 (amended): the `--delete-existing` sweep never deletes a record
whose name starts with an underscore, and the delete-only path deletes
only records named by the computed scope; hence when the configured
prefix does not itself start with an underscore, no bulk-delete path of
any run ever deletes a record whose name starts with an underscore. -/
theorem C4_underscore_exclusion (cfg : Cfg) (env : Env) (s : String)
    (hpfx : strStartsWith cfg.pfx "_" = false)
    (hdel : Effect.deleteFile s ∈ (mainModel cfg env).1) :
    strStartsWith s "_" = false := by
  rcases mainModel_delete_origin cfg env s hdel with h | h
  · rw [delete_existing_configs, List.mem_filter] at h
    have h2 := h.2
    rw [Bool.and_eq_true] at h2
    simpa using h2.1
  · exact scopeList_not_underscore cfg hpfx s h

/-- The witness configuration for the amended C4: a creation run with
`--delete-existing` over prefix `APW`. -/
def cfgC4w : Cfg := { cfgW with deleteExisting := true }

/-- The witness environment for the amended C4: `APW1.conf` exists. -/
def envC4w : Env := { envW with files0 := ["APW1"] }

/-- Witness for the amended C4: the sweep of that run deletes `APW1.conf`,
and indeed `APW1` does not start with an underscore. -/
theorem C4_underscore_exclusion_witness :
    strStartsWith "APW1" "_" = false :=
  C4_underscore_exclusion cfgC4w envC4w "APW1" (by decide) (by decide)

/-! ## Freshness of peer key material -/

/-- All peer public keys placed in the summary (and hence in the rendered
config records and the API payloads, both of which read the same list). -/
def allPubs (sm : List SummaryEntry) : List String :=
  sm.flatMap (fun e => e.peers.map (fun p => p.public_key))

/-- The key-generation primitive never returns the same public key on two
distinct calls. -/
def PubInj (keygen : Nat → Option KeyPair) : Prop :=
  ∀ j1 j2 kp1 kp2, keygen j1 = some kp1 → keygen j2 = some kp2 →
    kp1.pub = kp2.pub → j1 = j2

theorem genPeers_pubs (keygen : Nat → Option KeyPair) (hinj : PubInj keygen) :
    ∀ (tpls : List PeerTemplate) (k : Nat) (ps : List RPeer) (k2 : Nat),
      genPeers keygen k tpls = (some ps, k2) →
      (∀ p ∈ ps, ∃ j kp, k ≤ j ∧ j < k2 ∧ keygen j = some kp ∧
        p.public_key = kp.pub) ∧
      (ps.map (fun p => p.public_key)).Pairwise (· ≠ ·) := by
  intro tpls
  induction tpls with
  | nil =>
    intro k ps k2 h
    simp only [genPeers, Prod.mk.injEq] at h
    obtain ⟨h1, rfl⟩ := h
    cases h1
    exact ⟨by simp, by simp⟩
  | cons t ts ih =>
    intro k ps k2 h
    simp only [genPeers] at h
    rcases hk : keygen k with _ | kp
    · rw [hk] at h
      simp at h
    · rw [hk] at h
      rcases hg : genPeers keygen (k + 1) ts with ⟨o, kk⟩
      rw [hg] at h
      cases o with
      | none => simp at h
      | some ps2 =>
        simp only [Prod.mk.injEq, Option.some.injEq] at h
        obtain ⟨rfl, rfl⟩ := h
        obtain ⟨hmem, hpair⟩ := ih (k + 1) ps2 kk hg
        have hk2 : k + 1 ≤ kk := by
          have h2 := genPeers_k_le keygen ts (k + 1)
          rw [hg] at h2
          exact h2
        constructor
        · intro p hp
          rcases List.mem_cons.mp hp with rfl | hp2
          · exact ⟨k, kp, le_refl k, by omega, hk, rfl⟩
          · obtain ⟨j, kpj, hj1, hj2, hj3, hj4⟩ := hmem p hp2
            exact ⟨j, kpj, by omega, hj2, hj3, hj4⟩
        · rw [List.map_cons, List.pairwise_cons]
          refine ⟨?_, hpair⟩
          intro q hq
          rw [List.mem_map] at hq
          obtain ⟨p, hp, rfl⟩ := hq
          obtain ⟨j, kpj, hj1, hj2, hj3, hj4⟩ := hmem p hp
          show kp.pub ≠ p.public_key
          intro heq
          rw [hj4] at heq
          have := hinj k j kp kpj hk hj3 heq
          omega

/-- The invariant carried through the creation loop: every summarized
public key comes from a key-generation call below the counter, and all of
them are pairwise distinct. -/
def SummaryPubsOK (env : Env) (st : LoopState) : Prop :=
  (∀ p ∈ allPubs st.summary,
    ∃ j kp, j < st.k ∧ env.keygen j = some kp ∧ p = kp.pub) ∧
  (allPubs st.summary).Pairwise (· ≠ ·)

theorem allPubs_append (sm : List SummaryEntry) (e : SummaryEntry) :
    allPubs (sm ++ [e]) = allPubs sm ++ e.peers.map (fun p => p.public_key) := by
  simp [allPubs]

theorem processName_pubs (cfg : Cfg) (env : Env) (hinj : PubInj env.keygen)
    (st : LoopState) (name : String) (h : SummaryPubsOK env st) :
    SummaryPubsOK env (processName cfg env st name) := by
  obtain ⟨hfrom, hpair⟩ := h
  simp only [processName]
  split
  · exact ⟨hfrom, hpair⟩
  · split
    · refine ⟨?_, hpair⟩
      intro p hp
      obtain ⟨j, kp, h1, h2, h3⟩ := hfrom p hp
      exact ⟨j, kp, by dsimp only; omega, h2, h3⟩
    · split
      · rename_i k2 hg
        have hk2 : st.k + 1 ≤ k2 := by
          have h2 := genPeers_k_le env.keygen cfg.extraPeers (st.k + 1)
          rw [hg] at h2
          exact h2
        refine ⟨?_, hpair⟩
        intro p hp
        obtain ⟨j, kp, h1, h2, h3⟩ := hfrom p hp
        exact ⟨j, kp, by dsimp only; omega, h2, h3⟩
      · rename_i ikp hk opair ps k2 hg
        have hk2 : st.k + 1 ≤ k2 := by
          have h2 := genPeers_k_le env.keygen cfg.extraPeers (st.k + 1)
          rw [hg] at h2
          exact h2
        obtain ⟨hmem, hpsp⟩ := genPeers_pubs env.keygen hinj cfg.extraPeers
          (st.k + 1) ps k2 hg
        have hnew : SummaryPubsOK env
            { st with
              k := k2
              summary := st.summary ++ [SummaryEntry.mk name ikp.pub ps] } := by
          constructor
          · intro p hp
            rw [allPubs_append] at hp
            rcases List.mem_append.mp hp with hp2 | hp2
            · obtain ⟨j, kp, h1, h2, h3⟩ := hfrom p hp2
              exact ⟨j, kp, by dsimp only; omega, h2, h3⟩
            · rw [List.mem_map] at hp2
              obtain ⟨q, hq, rfl⟩ := hp2
              obtain ⟨j, kp, h1, h2, h3, h4⟩ := hmem q hq
              exact ⟨j, kp, by dsimp only; omega, h3, h4⟩
          · rw [allPubs_append, List.pairwise_append]
            refine ⟨hpair, hpsp, ?_⟩
            intro a ha b hb
            obtain ⟨j1, kp1, hj1, hj2, hj3⟩ := hfrom a ha
            rw [List.mem_map] at hb
            obtain ⟨q, hq, rfl⟩ := hb
            obtain ⟨j2, kp2, hl1, hl2, hl3, hl4⟩ := hmem q hq
            intro heq
            rw [hj3, hl4] at heq
            have := hinj j1 j2 kp1 kp2 hj2 hl3 heq
            omega
        split
        · exact hnew
        · exact hnew

theorem creationLoop_pubs_aux (cfg : Cfg) (env : Env) (hinj : PubInj env.keygen) :
    ∀ (names : List String) (st : LoopState), SummaryPubsOK env st →
      SummaryPubsOK env (names.foldl (processName cfg env) st) := by
  intro names
  induction names with
  | nil => intro st h; exact h
  | cons n ns ih =>
    intro st h
    rw [List.foldl_cons]
    exact ih _ (processName_pubs cfg env hinj st n h)

/-- Overwrites a template's configured `public_key` field. -/
def setTplPub (v : String) (t : PeerTemplate) : PeerTemplate :=
  { t with public_key := v }

theorem genPeers_map_pub (keygen : Nat → Option KeyPair) (v : String) :
    ∀ (tpls : List PeerTemplate) (k : Nat),
      genPeers keygen k (tpls.map (setTplPub v)) = genPeers keygen k tpls := by
  intro tpls
  induction tpls with
  | nil => intro k; rfl
  | cons t ts ih =>
    intro k
    simp only [List.map_cons, genPeers, setTplPub]
    rw [ih (k + 1)]

theorem processName_tpl_pub (cfg : Cfg) (env : Env) (v : String)
    (st : LoopState) (name : String) :
    processName { cfg with extraPeers := cfg.extraPeers.map (setTplPub v) } env
        st name
      = processName cfg env st name := by
  simp only [processName, genPeers_map_pub]

theorem scopeList_tpl_pub (cfg : Cfg) (v : String) :
    scopeList { cfg with extraPeers := cfg.extraPeers.map (setTplPub v) }
      = scopeList cfg := rfl

theorem deleteOnlyStep_tpl_pub (cfg : Cfg) (env : Env) (v : String) :
    deleteOnlyStep { cfg with extraPeers := cfg.extraPeers.map (setTplPub v) } env
      = deleteOnlyStep cfg env := rfl

theorem mainModel_tpl_pub (cfg : Cfg) (env : Env) (v : String) :
    mainModel { cfg with extraPeers := cfg.extraPeers.map (setTplPub v) } env
      = mainModel cfg env := by
  have hp : processName { cfg with extraPeers := cfg.extraPeers.map (setTplPub v) }
        env
      = processName cfg env :=
    funext fun st => funext fun name => processName_tpl_pub cfg env v st name
  simp only [mainModel, hp, scopeList_tpl_pub, deleteOnlyStep_tpl_pub]

/-- C8: the peer key material of every created entity is freshly generated
— under the assumption that the key-generation primitive never repeats a
public key, all peer public keys placed in the summary (the single source
of both the rendered config records and the API payloads) are pairwise
distinct and each one comes from a key-generation call — and the
template's configured `public_key` field is never used: replacing it by
any value leaves the entire run unchanged. -/
theorem C8_fresh_peer_keys (cfg : Cfg) (env : Env) (files : List String)
    (v : String) (hinj : PubInj env.keygen) :
    ((allPubs (creationLoop cfg env files).summary).Pairwise (· ≠ ·) ∧
      ∀ p ∈ allPubs (creationLoop cfg env files).summary,
        ∃ j kp, env.keygen j = some kp ∧ p = kp.pub) ∧
    mainModel { cfg with extraPeers := cfg.extraPeers.map (setTplPub v) } env
      = mainModel cfg env := by
  refine ⟨?_, mainModel_tpl_pub cfg env v⟩
  have h := creationLoop_pubs_aux cfg env hinj (scopeList cfg)
    { files := files, k := 0, total := 0, created := 0, skipped := 0,
      errors := 0, summary := [], processed := [], effects := [] }
    ⟨by simp [allPubs], by simp [allPubs]⟩
  refine ⟨h.2, ?_⟩
  intro p hp
  obtain ⟨j, kp, _, h2, h3⟩ := h.1 p hp
  exact ⟨j, kp, h2, h3⟩

theorem strOfNat_injective : Function.Injective strOfNat := by
  intro a b h
  have h2 := congrArg (fun s : String => charsToNat s.data) h
  simpa [strOfNat, charsToNat_natChars] using h2

/-- Witness for C8 at the concrete configuration and environment. -/
theorem C8_fresh_peer_keys_witness :
    ((allPubs (creationLoop cfgW envW []).summary).Pairwise (· ≠ ·) ∧
      ∀ p ∈ allPubs (creationLoop cfgW envW []).summary,
        ∃ j kp, envW.keygen j = some kp ∧ p = kp.pub) ∧
    mainModel { cfgW with extraPeers := cfgW.extraPeers.map (setTplPub "X") } envW
      = mainModel cfgW envW :=
  C8_fresh_peer_keys cfgW envW [] "X"
    (fun j1 j2 kp1 kp2 h1 h2 hpub => by
      have e1 : kp1 = KeyPair.mk (strOfNat j1) (strOfNat j1) :=
        (Option.some.inj h1).symm
      have e2 : kp2 = KeyPair.mk (strOfNat j2) (strOfNat j2) :=
        (Option.some.inj h2).symm
      subst e1
      subst e2
      exact strOfNat_injective hpub)

end Masscreate
